import Mathlib

/-!
Verification of the project store of the DragAndDrop task board.

The TypeScript source (`app.ts`) centres on `ProjectState`, a singleton
store holding an ordered array of `Project` records and a list of listener
callbacks.  Its operations are:

* `addProject(title, description, people)` — builds a `Project` with a
  freshly generated id (`Math.random().toString()`) and status `Active`,
  pushes it on the array, then notifies every listener;
* `moveProject(projectId, newStatus)` — finds the first project with the
  given id; if it exists and its status differs it mutates the status in
  place and notifies; otherwise it does nothing;
* `updateListeners()` — iterates the listener list in registration order
  and hands each listener `this.projects.slice()`, a fresh shallow copy.

We embed this shallowly in three complementary models, each translated
from the same source lines:

1. a value model (`ProjectState`), where each operation returns the new
   state together with a `Bool` recording whether `updateListeners` ran;
2. a heap model (`Heap`, `HStore`), making the JavaScript array references
   explicit so that the per-listener `slice()` copies and their isolation
   from the canonical array can be stated;
3. an exception model (`EStore`), where each listener either completes or
   throws, and notification is the source's unguarded synchronous loop.
-/

/-- The two-variant status enum (`enum ProjectStatus { Active, Finished }`). -/
inductive ProjectStatus
  | Active
  | Finished
deriving DecidableEq, Repr

/-- The `Project` record: identity, descriptive fields and current status
(class `Project` of the source). `people` is a TypeScript `number` used as an
integer count. -/
structure Project where
  id : String
  title : String
  description : String
  people : Int
  status : ProjectStatus
deriving DecidableEq, Repr

/-- Value model of `ProjectState`: the canonical ordered sequence
`private projects: Project[]`. -/
structure ProjectState where
  projects : List Project
deriving DecidableEq, Repr

/-- The empty store, as produced by the private constructor. -/
def ProjectState.initial : ProjectState := { projects := [] }

/-- Embedding of `addProject(title, description, people)`: build the new project with the
externally generated id (`Math.random().toString()` is modelled by passing
the drawn string in) and status `Active`, push it at the end, and notify.
The `Bool` component records that `updateListeners` was invoked. -/
def ProjectState.addProject (s : ProjectState) (freshId title description : String)
    (people : Int) : ProjectState × Bool :=
  ({ projects := s.projects ++ [⟨freshId, title, description, people, ProjectStatus.Active⟩] },
    true)

/-- In-place status mutation of the first array element whose `id` matches,
exactly the effect of `project.status = newStatus` on the element found by
`this.projects.find(...)`. -/
def updateFirst : List Project → String → ProjectStatus → List Project
  | [], _, _ => []
  | p :: rest, pid, st =>
    if p.id == pid then { p with status := st } :: rest
    else p :: updateFirst rest pid st

/-- Embedding of `moveProject(projectId, newStatus)`: defensive `find`, then mutate and
notify only when the project exists and its status differs.  The `Bool`
component records whether `updateListeners` was invoked. -/
def ProjectState.moveProject (s : ProjectState) (projectId : String)
    (newStatus : ProjectStatus) : ProjectState × Bool :=
  match s.projects.find? (fun p => p.id == projectId) with
  | some p =>
    if p.status ≠ newStatus then
      ({ projects := updateFirst s.projects projectId newStatus }, true)
    else (s, false)
  | none => (s, false)

/-- One creation request, the `(title, description, people)` tuple fed to
`addProject` by the form collaborator. -/
structure CreateReq where
  title : String
  description : String
  people : Int
deriving DecidableEq, Repr

/-- Run a sequence of `addProject` calls starting from state `s`; the id drawn
by call number `k` (counting from the start of the whole run) is `gen k`. -/
def runCreatesFrom (gen : Nat → String) : Nat → ProjectState → List CreateReq → ProjectState
  | _, s, [] => s
  | k, s, r :: rest =>
      runCreatesFrom gen (k + 1) ((s.addProject (gen k) r.title r.description r.people).1) rest

/-- Run a sequence of `addProject` calls on the fresh store. -/
def runCreates (gen : Nat → String) (reqs : List CreateReq) : ProjectState :=
  runCreatesFrom gen 0 ProjectState.initial reqs

theorem runCreatesFrom_projects (gen : Nat → String) :
    ∀ (reqs : List CreateReq) (k : Nat) (s : ProjectState) (i : Nat),
      (runCreatesFrom gen k s reqs).projects.length = s.projects.length + reqs.length ∧
      ((i < s.projects.length → (runCreatesFrom gen k s reqs).projects[i]? = s.projects[i]?) ∧
        (s.projects.length ≤ i →
          (runCreatesFrom gen k s reqs).projects[i]?
            = (reqs[i - s.projects.length]?).map fun r =>
                ⟨gen (k + (i - s.projects.length)), r.title, r.description, r.people,
                  ProjectStatus.Active⟩))
  | [], k, s, i => by
      refine ⟨by simp [runCreatesFrom], fun _ => rfl, fun h => ?_⟩
      simp [runCreatesFrom, List.getElem?_eq_none_iff.mpr h, List.getElem?_eq_none_iff.mpr h]
  | r :: rest, k, s, i => by
      have ih := runCreatesFrom_projects gen rest (k + 1)
        ((s.addProject (gen k) r.title r.description r.people).1) i
      have hlen : ((s.addProject (gen k) r.title r.description r.people).1).projects.length
          = s.projects.length + 1 := by
        simp [ProjectState.addProject]
      refine ⟨?_, ?_, ?_⟩
      · simp only [runCreatesFrom, List.length_cons]
        rw [ih.1, hlen]
        omega
      · intro hi
        have h1 := ih.2.1 (by omega)
        simp only [runCreatesFrom]
        rw [h1]
        simp [ProjectState.addProject, List.getElem?_append_left hi]
      · intro hi
        rcases Nat.eq_or_lt_of_le hi with heq | hlt
        · have h1 := ih.2.1 (by omega)
          simp only [runCreatesFrom]
          rw [h1, ← heq]
          simp [ProjectState.addProject, List.getElem?_concat_length]
        · have h2 := ih.2.2 (by omega)
          simp only [runCreatesFrom]
          rw [h2, hlen]
          have e1 : i - (s.projects.length + 1) + 1 = i - s.projects.length := by omega
          have e2 : k + 1 + (i - (s.projects.length + 1)) = k + (i - s.projects.length) := by
            omega
          rw [e2, ← e1]
          simp [List.getElem?_cons_succ]

theorem updateFirst_length (pid : String) (st : ProjectStatus) :
    ∀ ps : List Project, (updateFirst ps pid st).length = ps.length
  | [] => rfl
  | p :: rest => by
      by_cases h : (p.id == pid) = true
      · simp [updateFirst, h]
      · simp [updateFirst, h, updateFirst_length pid st rest]

theorem find?_updateFirst (pid : String) (st : ProjectStatus) :
    ∀ (ps : List Project) (p : Project),
      ps.find? (fun q => q.id == pid) = some p →
      (updateFirst ps pid st).find? (fun q => q.id == pid)
        = some { p with status := st }
  | [], p => by simp [List.find?]
  | p0 :: rest, p => by
      by_cases h : (p0.id == pid) = true
      · intro hf
        simp only [List.find?_cons, h, Option.some_inj] at hf
        subst hf
        simp [updateFirst, List.find?_cons, h]
      · intro hf
        simp only [List.find?_cons, h] at hf
        simp only [updateFirst, h, if_false, Bool.false_eq_true]
        simp only [List.find?_cons, h]
        exact find?_updateFirst pid st rest p hf

theorem updateFirst_fields (pid : String) (st : ProjectStatus) :
    ∀ (ps : List Project) (i : Nat) (p : Project), ps[i]? = some p →
      ∃ q, (updateFirst ps pid st)[i]? = some q ∧ q.id = p.id ∧ q.title = p.title ∧
        q.description = p.description ∧ q.people = p.people
  | [], i, p => by simp
  | p0 :: rest, 0, p => by
      intro hp
      simp only [List.getElem?_cons_zero, Option.some_inj] at hp
      by_cases h : (p0.id == pid) = true
      · exact ⟨{ p0 with status := st }, by simp [updateFirst, h, ← hp]⟩
      · exact ⟨p0, by simp [updateFirst, h, ← hp]⟩
  | p0 :: rest, i + 1, p => by
      intro hp
      simp only [List.getElem?_cons_succ] at hp
      by_cases h : (p0.id == pid) = true
      · exact ⟨p, by simp [updateFirst, h, hp]⟩
      · obtain ⟨q, hq⟩ := updateFirst_fields pid st rest i p hp
        exact ⟨q, by simpa [updateFirst, h] using hq⟩

theorem updateFirst_of_ne (pid : String) (st : ProjectStatus) :
    ∀ (ps : List Project) (i : Nat) (p : Project), ps[i]? = some p → p.id ≠ pid →
      (updateFirst ps pid st)[i]? = some p
  | [], i, p => by simp
  | p0 :: rest, 0, p => by
      intro hp hne
      simp only [List.getElem?_cons_zero, Option.some_inj] at hp
      subst hp
      have h : (p0.id == pid) = false := by
        simpa using hne
      simp [updateFirst, h]
  | p0 :: rest, i + 1, p => by
      intro hp hne
      simp only [List.getElem?_cons_succ] at hp
      by_cases h : (p0.id == pid) = true
      · simp [updateFirst, h, hp]
      · simpa [updateFirst, h] using updateFirst_of_ne pid st rest i p hp hne

theorem updateFirst_later (pid : String) (st : ProjectStatus) :
    ∀ (ps : List Project) (i j : Nat) (p q : Project), ps[i]? = some p → p.id = pid →
      ps[j]? = some q → i < j → (updateFirst ps pid st)[j]? = some q
  | [], i, j, p, q => by simp
  | p0 :: rest, i, 0, p, q => by
      intro _ _ _ hij
      omega
  | p0 :: rest, 0, j + 1, p, q => by
      intro hp hpid hq _
      simp only [List.getElem?_cons_zero, Option.some_inj] at hp
      subst hp
      have h : (p0.id == pid) = true := by simpa using hpid
      simp only [List.getElem?_cons_succ] at hq
      simp [updateFirst, h, hq]
  | p0 :: rest, i + 1, j + 1, p, q => by
      intro hp hpid hq hij
      simp only [List.getElem?_cons_succ] at hp hq
      have ih := updateFirst_later pid st rest i j p q hp hpid hq (by omega)
      by_cases h : (p0.id == pid) = true
      · simp [updateFirst, h, hq]
      · simp [updateFirst, h, ih]

theorem updateFirst_map_id (pid : String) (st : ProjectStatus) (ps : List Project) (i : Nat) :
    ((updateFirst ps pid st)[i]?).map Project.id = (ps[i]?).map Project.id := by
  cases hp : ps[i]? with
  | none =>
      have hn : (updateFirst ps pid st)[i]? = none := by
        rw [List.getElem?_eq_none_iff] at hp ⊢
        rwa [updateFirst_length]
      simp [hn, hp]
  | some p =>
      obtain ⟨q, hq, hid, _⟩ := updateFirst_fields pid st ps i p hp
      simp [hq, hid]

theorem moveProject_of_none (s : ProjectState) (pid : String) (st : ProjectStatus)
    (h : s.projects.find? (fun q => q.id == pid) = none) :
    s.moveProject pid st = (s, false) := by
  simp [ProjectState.moveProject, h]

theorem moveProject_of_same (s : ProjectState) (pid : String) (st : ProjectStatus)
    (p : Project) (hf : s.projects.find? (fun q => q.id == pid) = some p)
    (hst : p.status = st) : s.moveProject pid st = (s, false) := by
  simp [ProjectState.moveProject, hf, hst]

theorem moveProject_of_diff (s : ProjectState) (pid : String) (st : ProjectStatus)
    (p : Project) (hf : s.projects.find? (fun q => q.id == pid) = some p)
    (hst : p.status ≠ st) :
    s.moveProject pid st = ({ projects := updateFirst s.projects pid st }, true) := by
  simp [ProjectState.moveProject, hf, hst]

/-- Claim C1: every `createProject` call appends exactly one new project, carrying
the given title, description and people, the freshly drawn id, and status
`Active`, and then notifies the listeners; after `N` creation calls the snapshot
has exactly `N` entries with the fields passed at creation. -/
theorem addProject_creates_exactly :
    (∀ (s : ProjectState) (fid t d : String) (pp : Int),
        (s.addProject fid t d pp).1.projects
          = s.projects ++ [⟨fid, t, d, pp, ProjectStatus.Active⟩]
        ∧ (s.addProject fid t d pp).2 = true)
    ∧ ∀ (gen : Nat → String) (reqs : List CreateReq),
        (runCreates gen reqs).projects.length = reqs.length
        ∧ ∀ i : Nat, (runCreates gen reqs).projects[i]?
            = (reqs[i]?).map fun r =>
                ⟨gen i, r.title, r.description, r.people, ProjectStatus.Active⟩ := by
  constructor
  · exact fun s fid t d pp => ⟨rfl, rfl⟩
  · intro gen reqs
    have h := runCreatesFrom_projects gen reqs 0 ProjectState.initial
    constructor
    · simpa [runCreates, ProjectState.initial] using (h 0).1
    · intro i
      have hi := (h i).2.2 (by simp [ProjectState.initial])
      simpa [runCreates, ProjectState.initial] using hi

/-- Claim C2: `setStatus` is idempotent — if the looked-up project already has
the requested status the call is a no-op with no notification, and two
consecutive identical `setStatus` calls notify at most once (the second call
never notifies). -/
theorem setStatus_idempotent (s : ProjectState) (pid : String) (st : ProjectStatus) :
    (∀ p : Project, s.projects.find? (fun q => q.id == pid) = some p → p.status = st →
        s.moveProject pid st = (s, false))
    ∧ ((s.moveProject pid st).1.moveProject pid st).2 = false := by
  refine ⟨fun p hf hst => moveProject_of_same s pid st p hf hst, ?_⟩
  cases hf : s.projects.find? (fun q => q.id == pid) with
  | none => rw [moveProject_of_none s pid st hf, moveProject_of_none s pid st hf]
  | some p =>
      by_cases hst : p.status = st
      · rw [moveProject_of_same s pid st p hf hst, moveProject_of_same s pid st p hf hst]
      · rw [moveProject_of_diff s pid st p hf hst]
        have h2 := find?_updateFirst pid st s.projects p hf
        rw [moveProject_of_same _ pid st _ h2 rfl]

/-- Claim C3: `setStatus` with an id matching no stored project is total (never
throws in the model), leaves the state untouched and notifies nobody. -/
theorem setStatus_unknown_id (s : ProjectState) (pid : String) (st : ProjectStatus)
    (h : s.projects.find? (fun q => q.id == pid) = none) :
    s.moveProject pid st = (s, false) := moveProject_of_none s pid st h

/-- Claim C4: when the looked-up project exists and its status differs,
`setStatus` updates that status in place and notifies exactly once: the next
snapshot has the same number of entries, positionally the same ids, and the
project is found under its old id with the new status. -/
theorem setStatus_transitions (s : ProjectState) (pid : String) (st : ProjectStatus)
    (p : Project) (hf : s.projects.find? (fun q => q.id == pid) = some p)
    (hne : p.status ≠ st) :
    (s.moveProject pid st).2 = true
    ∧ (s.moveProject pid st).1.projects.length = s.projects.length
    ∧ (s.moveProject pid st).1.projects.find? (fun q => q.id == pid)
        = some { p with status := st }
    ∧ ∀ i : Nat, ((s.moveProject pid st).1.projects[i]?).map Project.id
        = (s.projects[i]?).map Project.id := by
  rw [moveProject_of_diff s pid st p hf hne]
  exact ⟨rfl, updateFirst_length pid st s.projects, find?_updateFirst pid st s.projects p hf,
    fun i => updateFirst_map_id pid st s.projects i⟩

/-- Claim C10: `setStatus` modifies at most the status of at most one project:
the sequence keeps its length and order, every project keeps its id, title,
description and people, projects whose id differs from the argument are
entirely unchanged, and when several projects share the id only the first (in
insertion order) can be affected — all later ones are unchanged. -/
theorem setStatus_frame (s : ProjectState) (pid : String) (st : ProjectStatus) :
    (s.moveProject pid st).1.projects.length = s.projects.length
    ∧ (∀ (i : Nat) (p : Project), s.projects[i]? = some p →
        ∃ q, (s.moveProject pid st).1.projects[i]? = some q ∧ q.id = p.id
          ∧ q.title = p.title ∧ q.description = p.description ∧ q.people = p.people)
    ∧ (∀ (i : Nat) (p : Project), s.projects[i]? = some p → p.id ≠ pid →
        (s.moveProject pid st).1.projects[i]? = some p)
    ∧ (∀ (i j : Nat) (p q : Project), s.projects[i]? = some p → p.id = pid →
        s.projects[j]? = some q → i < j → (s.moveProject pid st).1.projects[j]? = some q) := by
  cases hf : s.projects.find? (fun q => q.id == pid) with
  | none =>
      rw [moveProject_of_none s pid st hf]
      exact ⟨rfl, fun i p hp => ⟨p, hp, rfl, rfl, rfl, rfl⟩, fun i p hp _ => hp,
        fun i j p q hp _ hq _ => hq⟩
  | some p0 =>
      by_cases hst : p0.status = st
      · rw [moveProject_of_same s pid st p0 hf hst]
        exact ⟨rfl, fun i p hp => ⟨p, hp, rfl, rfl, rfl, rfl⟩, fun i p hp _ => hp,
          fun i j p q hp _ hq _ => hq⟩
      · rw [moveProject_of_diff s pid st p0 hf hst]
        exact ⟨updateFirst_length pid st s.projects,
          fun i p hp => updateFirst_fields pid st s.projects i p hp,
          fun i p hp hne => updateFirst_of_ne pid st s.projects i p hp hne,
          fun i j p q hp hpid hq hij => updateFirst_later pid st s.projects i j p q hp hpid hq hij⟩

/-- A concrete project, used to evaluate the transition theorems. -/
def sampleActive : Project :=
  ⟨"id0", "Build API", "Design the REST layer", 3, ProjectStatus.Active⟩

/-- A concrete one-project store, used to evaluate the transition theorems. -/
def sampleState : ProjectState := { projects := [sampleActive] }

/-- Witness for claim C2 at a concrete store: re-applying the current status is
a silent no-op, and a repeated `setStatus` call never notifies twice. -/
theorem setStatus_idempotent_witness :
    sampleState.moveProject "id0" ProjectStatus.Active = (sampleState, false)
    ∧ ((sampleState.moveProject "id0" ProjectStatus.Active).1.moveProject "id0"
        ProjectStatus.Active).2 = false :=
  ⟨(setStatus_idempotent sampleState "id0" ProjectStatus.Active).1 sampleActive (by decide) rfl,
    (setStatus_idempotent sampleState "id0" ProjectStatus.Active).2⟩

/-- Witness for claim C3 at a concrete store: an unknown id is silently ignored. -/
theorem setStatus_unknown_id_witness :
    sampleState.moveProject "nonexistent" ProjectStatus.Finished = (sampleState, false) :=
  setStatus_unknown_id sampleState "nonexistent" ProjectStatus.Finished (by decide)

/-- Witness for claim C4 at a concrete store: moving the only project to
`Finished` notifies once and updates just its status. -/
theorem setStatus_transitions_witness :
    (sampleState.moveProject "id0" ProjectStatus.Finished).2 = true
    ∧ (sampleState.moveProject "id0" ProjectStatus.Finished).1.projects.length
        = sampleState.projects.length
    ∧ (sampleState.moveProject "id0" ProjectStatus.Finished).1.projects.find?
        (fun q => q.id == "id0") = some { sampleActive with status := ProjectStatus.Finished }
    ∧ ∀ i : Nat, (((sampleState.moveProject "id0" ProjectStatus.Finished).1.projects[i]?).map
        Project.id) = ((sampleState.projects[i]?).map Project.id) :=
  setStatus_transitions sampleState "id0" ProjectStatus.Finished sampleActive (by decide)
    (by decide)

/-- Witness for claim C10 at a concrete store: the frame conditions of
`setStatus`, evaluated on the one-project store. -/
theorem setStatus_frame_witness :
    (sampleState.moveProject "id0" ProjectStatus.Finished).1.projects.length
        = sampleState.projects.length
    ∧ (∀ (i : Nat) (p : Project), sampleState.projects[i]? = some p →
        ∃ q, (sampleState.moveProject "id0" ProjectStatus.Finished).1.projects[i]? = some q
          ∧ q.id = p.id ∧ q.title = p.title ∧ q.description = p.description
          ∧ q.people = p.people)
    ∧ (∀ (i : Nat) (p : Project), sampleState.projects[i]? = some p → p.id ≠ "id0" →
        (sampleState.moveProject "id0" ProjectStatus.Finished).1.projects[i]? = some p)
    ∧ (∀ (i j : Nat) (p q : Project), sampleState.projects[i]? = some p → p.id = "id0" →
        sampleState.projects[j]? = some q → i < j →
        (sampleState.moveProject "id0" ProjectStatus.Finished).1.projects[j]? = some q) :=
  setStatus_frame sampleState "id0" ProjectStatus.Finished

theorem lt_length_of_getElem?_some {α : Type} {l : List α} {i : Nat} {v : α}
    (h : l[i]? = some v) : i < l.length := by
  by_contra hc
  rw [List.getElem?_eq_none_iff.mpr (by omega)] at h
  exact Option.noConfusion h

theorem runCreates_getElem? (gen : Nat → String) (reqs : List CreateReq) (i : Nat) :
    (runCreates gen reqs).projects[i]?
      = (reqs[i]?).map fun r =>
          ⟨gen i, r.title, r.description, r.people, ProjectStatus.Active⟩ := by
  have hi := (runCreatesFrom_projects gen reqs 0 ProjectState.initial i).2.2
    (by simp [ProjectState.initial])
  simpa [runCreates, ProjectState.initial] using hi

/-- Claim C6: over any run of `createProject` calls whose drawn ids are pairwise
distinct (the id source `Math.random().toString()` supplying fresh values),
every resulting project carries a distinct id. -/
theorem createProject_ids_distinct (gen : Nat → String) (reqs : List CreateReq)
    (hgen : ∀ i j : Nat, i < reqs.length → j < reqs.length → gen i = gen j → i = j) :
    ((runCreates gen reqs).projects.map Project.id).Nodup := by
  have hlen : (runCreates gen reqs).projects.length = reqs.length := by
    simpa [runCreates, ProjectState.initial] using
      (runCreatesFrom_projects gen reqs 0 ProjectState.initial 0).1
  have heq : (runCreates gen reqs).projects.map Project.id
      = (List.range reqs.length).map gen := by
    apply List.ext_getElem?
    intro i
    rw [List.getElem?_map, List.getElem?_map, runCreates_getElem?]
    by_cases hi : i < reqs.length
    · rw [List.getElem?_range hi, List.getElem?_eq_getElem hi]
      rfl
    · rw [List.getElem?_eq_none_iff.mpr (by omega),
        List.getElem?_eq_none_iff.mpr (by simpa using hi)]
      rfl
  rw [heq]
  exact (List.nodup_range reqs.length).map_on
    (fun i hi j hj hf => hgen i j (List.mem_range.mp hi) (List.mem_range.mp hj) hf)

/-- An injective id supply used to evaluate the uniqueness theorem. -/
def sampleGen : Nat → String := fun n => String.mk (List.replicate n 'a')

/-- Two concrete creation requests used to evaluate the uniqueness theorem. -/
def sampleReqs : List CreateReq :=
  [⟨"Build API", "Design the REST layer", 3⟩, ⟨"Docs", "Write the docs", 2⟩]

/-- Witness for claim C6: two creations with distinct drawn ids yield
pairwise-distinct project ids. -/
theorem createProject_ids_distinct_witness :
    ((runCreates sampleGen sampleReqs).projects.map Project.id).Nodup :=
  createProject_ids_distinct sampleGen sampleReqs
    (fun i j _ _ h => by
      have hl := congrArg (fun s => s.data.length) h
      simpa [sampleGen] using hl)

/-- The two mutating store entry points, as called by the form submission and
the drop handler. -/
inductive Op
  | create (freshId title description : String) (people : Int)
  | move (projectId : String) (newStatus : ProjectStatus)

/-- Apply one mutating operation to the value-model store. -/
def applyOp (s : ProjectState) : Op → ProjectState × Bool
  | Op.create fid t d pp => s.addProject fid t d pp
  | Op.move pid st => s.moveProject pid st

theorem updateFirst_cases (pid : String) (st : ProjectStatus) :
    ∀ (ps : List Project) (i : Nat) (p q : Project), ps[i]? = some p →
      (updateFirst ps pid st)[i]? = some q →
      q = p ∨ (q = { p with status := st } ∧ p.id = pid)
  | [], i, p, q => by simp
  | p0 :: rest, 0, p, q => by
      intro hp hq
      simp only [List.getElem?_cons_zero, Option.some_inj] at hp
      subst hp
      by_cases h : (p0.id == pid) = true
      · simp only [updateFirst, h, if_true, List.getElem?_cons_zero, Option.some_inj] at hq
        exact Or.inr ⟨hq.symm, by simpa using h⟩
      · simp only [updateFirst, h, if_false, Bool.false_eq_true,
          List.getElem?_cons_zero, Option.some_inj] at hq
        exact Or.inl hq.symm
  | p0 :: rest, i + 1, p, q => by
      intro hp hq
      simp only [List.getElem?_cons_succ] at hp
      by_cases h : (p0.id == pid) = true
      · simp only [updateFirst, h, if_true, List.getElem?_cons_succ] at hq
        rw [hp] at hq
        exact Or.inl (Option.some_inj.mp hq).symm
      · simp only [updateFirst, h, if_false, Bool.false_eq_true,
          List.getElem?_cons_succ] at hq
        exact updateFirst_cases pid st rest i p q hp hq

/-- Claim C9: the status state machine.  After any operation every stored
project is in exactly one of the two states `Active`/`Finished`; no operation
removes a project (ids persist positionwise); creation appends an `Active`
project; a `setStatus` to the current status is a silent no-op; and any status
change observed across an operation was caused by a `setStatus` to precisely
the new status on that project's id. -/
theorem status_state_machine (s : ProjectState) (op : Op) :
    (∀ q ∈ (applyOp s op).1.projects, q.status = ProjectStatus.Active
        ∨ q.status = ProjectStatus.Finished)
    ∧ (∀ (i : Nat) (p : Project), s.projects[i]? = some p →
        ∃ q, (applyOp s op).1.projects[i]? = some q ∧ q.id = p.id)
    ∧ (∀ (fid t d : String) (pp : Int), op = Op.create fid t d pp →
        (applyOp s op).1.projects = s.projects ++ [⟨fid, t, d, pp, ProjectStatus.Active⟩])
    ∧ (∀ (pid : String) (st : ProjectStatus) (p : Project), op = Op.move pid st →
        s.projects.find? (fun q => q.id == pid) = some p → p.status = st →
        applyOp s op = (s, false))
    ∧ (∀ (i : Nat) (p q : Project), s.projects[i]? = some p →
        (applyOp s op).1.projects[i]? = some q → q.status ≠ p.status →
        ∃ pid, op = Op.move pid q.status ∧ p.id = pid) := by
  refine ⟨?_, ?_, ?_, ?_, ?_⟩
  · intro q _
    cases q.status
    · exact Or.inl rfl
    · exact Or.inr rfl
  · intro i p hp
    cases op with
    | create fid t d pp =>
        have hi : i < s.projects.length := lt_length_of_getElem?_some hp
        refine ⟨p, ?_, rfl⟩
        simp only [applyOp, ProjectState.addProject]
        rw [List.getElem?_append_left hi]
        exact hp
    | move pid st =>
        cases hf : s.projects.find? (fun q => q.id == pid) with
        | none =>
            simp only [applyOp]
            rw [moveProject_of_none s pid st hf]
            exact ⟨p, hp, rfl⟩
        | some p0 =>
            by_cases hst : p0.status = st
            · simp only [applyOp]
              rw [moveProject_of_same s pid st p0 hf hst]
              exact ⟨p, hp, rfl⟩
            · simp only [applyOp]
              rw [moveProject_of_diff s pid st p0 hf hst]
              obtain ⟨q, hq, hid, _⟩ := updateFirst_fields pid st s.projects i p hp
              exact ⟨q, hq, hid⟩
  · intro fid t d pp heq
    subst heq
    rfl
  · intro pid st p heq hf hst
    subst heq
    exact moveProject_of_same s pid st p hf hst
  · intro i p q hp hq hne
    cases op with
    | create fid t d pp =>
        exfalso
        have hi : i < s.projects.length := lt_length_of_getElem?_some hp
        simp only [applyOp, ProjectState.addProject] at hq
        rw [List.getElem?_append_left hi, hp] at hq
        exact hne (by rw [Option.some_inj.mp hq])
    | move pid st =>
        cases hf : s.projects.find? (fun q => q.id == pid) with
        | none =>
            exfalso
            simp only [applyOp] at hq
            rw [moveProject_of_none s pid st hf, hp] at hq
            exact hne (by rw [Option.some_inj.mp hq])
        | some p0 =>
            by_cases hst : p0.status = st
            · exfalso
              simp only [applyOp] at hq
              rw [moveProject_of_same s pid st p0 hf hst, hp] at hq
              exact hne (by rw [Option.some_inj.mp hq])
            · simp only [applyOp] at hq
              rw [moveProject_of_diff s pid st p0 hf hst] at hq
              rcases updateFirst_cases pid st s.projects i p q hp hq with hcase | hcase
              · exact absurd (by rw [hcase]) hne
              · refine ⟨pid, ?_, hcase.2⟩
                have : q.status = st := by rw [hcase.1]
                rw [this]

/-- Witness for claim C9: on the one-project store, finishing the project keeps
its id at position 0, and re-applying the current status is a silent no-op. -/
theorem status_state_machine_witness :
    (∃ q, (applyOp sampleState (Op.move "id0" ProjectStatus.Finished)).1.projects[0]?
        = some q ∧ q.id = sampleActive.id)
    ∧ applyOp sampleState (Op.move "id0" ProjectStatus.Active) = (sampleState, false) :=
  ⟨(status_state_machine sampleState (Op.move "id0" ProjectStatus.Finished)).2.1 0
      sampleActive rfl,
    (status_state_machine sampleState (Op.move "id0" ProjectStatus.Active)).2.2.2.1
      "id0" ProjectStatus.Active sampleActive rfl (by decide) rfl⟩

/-- Heap of JavaScript arrays of projects; an array reference is its index.
This makes the aliasing behaviour of `this.projects` and of the per-listener
`this.projects.slice()` copies explicit. -/
structure Heap where
  arrays : List (List Project)
deriving DecidableEq, Repr

/-- Dereference an array. -/
def Heap.read (h : Heap) (r : Nat) : List Project := (h.arrays[r]?).getD []

/-- Overwrite the array behind a reference — an arbitrary in-place mutation
(adding, removing or replacing elements) performed by whoever holds it. -/
def Heap.write (h : Heap) (r : Nat) (v : List Project) : Heap := ⟨h.arrays.set r v⟩

/-- Allocate a fresh array holding `v`, as `slice()` does for its result. -/
def Heap.alloc (h : Heap) (v : List Project) : Heap × Nat :=
  (⟨h.arrays ++ [v]⟩, h.arrays.length)

/-- Heap model of the store: the canonical array reference (`this.projects`)
plus the registered listeners, identified by opaque tokens of type `L` in
registration order (`addListener` pushes at the end). -/
structure HStore (L : Type) where
  heap : Heap
  canon : Nat
  listeners : List L

/-- Embedding of `addListener`: push the callback at the end of the list. -/
def HStore.addListener {L : Type} (s : HStore L) (l : L) : HStore L :=
  { s with listeners := s.listeners ++ [l] }

/-- One iteration of the `updateListeners` loop: allocate the fresh
`this.projects.slice()` copy and record its delivery to listener `l`. -/
def notifyStep {L : Type} (canon : Nat) (acc : Heap × List (L × Nat)) (l : L) :
    Heap × List (L × Nat) :=
  let out := acc.1.alloc (acc.1.read canon)
  (out.1, acc.2 ++ [(l, out.2)])

/-- Embedding of `updateListeners`: iterate the listeners in registration
order, handing each a freshly allocated copy of the canonical array.  Returns
the final heap and the delivery trace (listener, delivered reference). -/
def HStore.updateListeners {L : Type} (s : HStore L) : Heap × List (L × Nat) :=
  s.listeners.foldl (notifyStep s.canon) (s.heap, [])

/-- Heap-model embedding of `addProject`: push the new `Active` project onto
the canonical array, then notify. -/
def HStore.addProject {L : Type} (s : HStore L) (freshId title description : String)
    (people : Int) : HStore L × List (L × Nat) :=
  let h1 : Heap := s.heap.write s.canon
    (s.heap.read s.canon ++ [⟨freshId, title, description, people, ProjectStatus.Active⟩])
  let s1 : HStore L := { s with heap := h1 }
  ({ s1 with heap := s1.updateListeners.1 }, s1.updateListeners.2)

theorem updateListeners_run {L : Type} (canon : Nat) :
    ∀ (ls : List L) (h : Heap) (tr : List (L × Nat)), canon < h.arrays.length →
      ls.foldl (notifyStep canon) (h, tr)
        = (⟨h.arrays ++ List.replicate ls.length (h.read canon)⟩,
            tr ++ ls.zip (List.range' h.arrays.length ls.length))
  | [], h, tr => by
      intro _
      simp [List.foldl]
  | l :: ls, h, tr => by
      intro hc
      have hstep : notifyStep canon (h, tr) l
          = (⟨h.arrays ++ [h.read canon]⟩, tr ++ [(l, h.arrays.length)]) := rfl
      have hc1 : canon < (Heap.mk (h.arrays ++ [h.read canon])).arrays.length := by
        simp
        omega
      have ih := updateListeners_run canon ls ⟨h.arrays ++ [h.read canon]⟩
        (tr ++ [(l, h.arrays.length)]) hc1
      have hread : (Heap.mk (h.arrays ++ [h.read canon])).read canon = h.read canon := by
        simp only [Heap.read]
        rw [List.getElem?_append_left hc]
      have hlen2 : (h.arrays ++ [h.read canon]).length = h.arrays.length + 1 := by simp
      rw [List.foldl_cons, hstep, ih, hread, hlen2, List.append_assoc, List.append_assoc]
      rfl

theorem updateListeners_eq {L : Type} (s : HStore L) (hc : s.canon < s.heap.arrays.length) :
    s.updateListeners
      = (⟨s.heap.arrays ++ List.replicate s.listeners.length (s.heap.read s.canon)⟩,
          s.listeners.zip (List.range' s.heap.arrays.length s.listeners.length)) := by
  have h := updateListeners_run s.canon s.listeners s.heap [] hc
  simpa [HStore.updateListeners] using h

theorem read_appended (h : Heap) (v : List Project) (n r : Nat)
    (hr1 : h.arrays.length ≤ r) (hr2 : r < h.arrays.length + n) :
    (Heap.mk (h.arrays ++ List.replicate n v)).read r = v := by
  simp only [Heap.read]
  rw [List.getElem?_append_right hr1]
  have hlt : r - h.arrays.length < n := by omega
  simp [List.getElem?_replicate, hlt]

theorem read_appended_low (h : Heap) (v : List Project) (n r : Nat)
    (hr : r < h.arrays.length) :
    (Heap.mk (h.arrays ++ List.replicate n v)).read r = h.read r := by
  simp only [Heap.read]
  rw [List.getElem?_append_left hr]

theorem read_write_ne (h : Heap) (r r' : Nat) (v : List Project) (hne : r ≠ r') :
    (h.write r v).read r' = h.read r' := by
  simp only [Heap.write, Heap.read]
  rw [List.getElem?_set_ne hne]

/-- Claim C5: snapshot isolation.  Every reference delivered to a listener by
`updateListeners` is a fresh copy: it differs from the canonical reference,
all delivered references are pairwise distinct, each holds the canonical
content, and an arbitrary mutation of one delivered array leaves both the
canonical array and every other delivered array holding the original
snapshot content. -/
theorem snapshot_isolation {L : Type} (s : HStore L) (hc : s.canon < s.heap.arrays.length) :
    (∀ e ∈ s.updateListeners.2, e.2 ≠ s.canon)
    ∧ (s.updateListeners.2.map Prod.snd).Nodup
    ∧ (∀ e ∈ s.updateListeners.2, s.updateListeners.1.read e.2 = s.heap.read s.canon)
    ∧ (∀ e ∈ s.updateListeners.2, ∀ v : List Project,
        (s.updateListeners.1.write e.2 v).read s.canon = s.heap.read s.canon
        ∧ ∀ e' ∈ s.updateListeners.2, e'.2 ≠ e.2 →
            (s.updateListeners.1.write e.2 v).read e'.2 = s.heap.read s.canon) := by
  rw [updateListeners_eq s hc]
  have hmem : ∀ e ∈ s.listeners.zip
      (List.range' s.heap.arrays.length s.listeners.length),
      s.heap.arrays.length ≤ e.2 ∧ e.2 < s.heap.arrays.length + s.listeners.length := by
    intro e he
    exact List.mem_range'_1.mp (List.of_mem_zip he).2
  refine ⟨?_, ?_, ?_, ?_⟩
  · intro e he
    have := hmem e he
    omega
  · rw [List.map_snd_zip _ _ (by rw [List.length_range'])]
    exact List.nodup_range' _ _
  · intro e he
    exact read_appended s.heap _ _ _ (hmem e he).1 (hmem e he).2
  · intro e he v
    have hb := hmem e he
    constructor
    · rw [read_write_ne _ _ _ _ (by omega)]
      exact read_appended_low s.heap _ _ _ hc
    · intro e' he' hne
      rw [read_write_ne _ _ _ _ (fun h => hne h.symm)]
      exact read_appended s.heap _ _ _ (hmem e' he').1 (hmem e' he').2

/-- All deliveries of one notification: listeners in registration order, all
references fresh and distinct, all contents equal to the canonical array. -/
theorem updateListeners_spec {L : Type} (s : HStore L) (hc : s.canon < s.heap.arrays.length) :
    (s.updateListeners.2.map Prod.fst = s.listeners)
    ∧ (s.updateListeners.2.map Prod.snd).Nodup
    ∧ (∀ e ∈ s.updateListeners.2, s.updateListeners.1.read e.2 = s.heap.read s.canon) := by
  rw [updateListeners_eq s hc]
  have hmem : ∀ e ∈ s.listeners.zip
      (List.range' s.heap.arrays.length s.listeners.length),
      s.heap.arrays.length ≤ e.2 ∧ e.2 < s.heap.arrays.length + s.listeners.length := by
    intro e he
    exact List.mem_range'_1.mp (List.of_mem_zip he).2
  refine ⟨?_, ?_, ?_⟩
  · exact List.map_fst_zip _ _ (by rw [List.length_range'])
  · rw [List.map_snd_zip _ _ (by rw [List.length_range'])]
    exact List.nodup_range' _ _
  · intro e he
    exact read_appended s.heap _ _ _ (hmem e he).1 (hmem e he).2

/-- Claim C7: every mutation builds one snapshot and delivers it to every
registered listener in registration order.  After `addProject` the delivery
trace lists exactly the registered listeners in order, the delivered
references are pairwise distinct (independent copies), and each delivered
array holds the same content — the canonical sequence extended by the new
`Active` project. -/
theorem notify_in_order {L : Type} (s : HStore L) (hc : s.canon < s.heap.arrays.length)
    (fid t d : String) (pp : Int) :
    ((s.addProject fid t d pp).2.map Prod.fst = s.listeners)
    ∧ ((s.addProject fid t d pp).2.map Prod.snd).Nodup
    ∧ (∀ e ∈ (s.addProject fid t d pp).2,
        (s.addProject fid t d pp).1.heap.read e.2
          = s.heap.read s.canon ++ [⟨fid, t, d, pp, ProjectStatus.Active⟩]) := by
  have hc1 : ({ s with heap := s.heap.write s.canon (s.heap.read s.canon
      ++ [⟨fid, t, d, pp, ProjectStatus.Active⟩]) } : HStore L).canon
      < ({ s with heap := s.heap.write s.canon (s.heap.read s.canon
      ++ [⟨fid, t, d, pp, ProjectStatus.Active⟩]) } : HStore L).heap.arrays.length := by
    simp only [Heap.write, List.length_set]
    exact hc
  have hs := updateListeners_spec { s with heap := s.heap.write s.canon (s.heap.read s.canon
      ++ [⟨fid, t, d, pp, ProjectStatus.Active⟩]) } hc1
  have hread1 : ({ s with heap := s.heap.write s.canon (s.heap.read s.canon
      ++ [⟨fid, t, d, pp, ProjectStatus.Active⟩]) } : HStore L).heap.read
        ({ s with heap := s.heap.write s.canon (s.heap.read s.canon
          ++ [⟨fid, t, d, pp, ProjectStatus.Active⟩]) } : HStore L).canon
      = s.heap.read s.canon ++ [⟨fid, t, d, pp, ProjectStatus.Active⟩] := by
    simp only [Heap.write, Heap.read]
    simp [List.getElem?_set_self, hc]
  refine ⟨hs.1, hs.2.1, ?_⟩
  intro e he
  have h3 := hs.2.2 e he
  rw [hread1] at h3
  exact h3

/-- A concrete heap store: one canonical array holding one project, two
listeners registered in order. -/
def sampleH : HStore String :=
  { heap := ⟨[[sampleActive]]⟩, canon := 0, listeners := ["colA", "colB"] }

/-- A concrete heap store with an empty canonical array and two listeners
subscribed before any creation. -/
def sampleH0 : HStore String :=
  { heap := ⟨[[]]⟩, canon := 0, listeners := ["colA", "colB"] }

/-- Witness for claim C5: on the concrete store, after notification a listener
overwriting its delivered array (reference 1) leaves both the canonical array
(reference 0) and the other listener's array (reference 2) with the original
snapshot content. -/
theorem snapshot_isolation_witness :
    ((sampleH.updateListeners.1.write 1 []).read sampleH.canon
        = sampleH.heap.read sampleH.canon)
    ∧ ((sampleH.updateListeners.1.write 1 []).read 2 = sampleH.heap.read sampleH.canon) := by
  have h := (snapshot_isolation sampleH (by decide)).2.2.2 ("colA", 1) (by decide) []
  exact ⟨h.1, h.2 ("colB", 2) (by decide) (by decide)⟩

/-- Witness for claim C7: on the concrete empty store with two listeners, one
`addProject` delivers to both listeners in subscription order, and each
delivered array holds the same one-project snapshot. -/
theorem notify_in_order_witness :
    ((sampleH0.addProject "id9" "Build API" "Design the REST layer" 3).2.map Prod.fst
        = sampleH0.listeners)
    ∧ (sampleH0.addProject "id9" "Build API" "Design the REST layer" 3).1.heap.read 1
        = sampleH0.heap.read sampleH0.canon
          ++ [⟨"id9", "Build API", "Design the REST layer", 3, ProjectStatus.Active⟩]
    ∧ (sampleH0.addProject "id9" "Build API" "Design the REST layer" 3).1.heap.read 2
        = sampleH0.heap.read sampleH0.canon
          ++ [⟨"id9", "Build API", "Design the REST layer", 3, ProjectStatus.Active⟩] := by
  have h := notify_in_order sampleH0 (by decide) "id9" "Build API" "Design the REST layer" 3
  exact ⟨h.1, h.2.2 ("colA", 1) (by decide), h.2.2 ("colB", 2) (by decide)⟩

/-- A listener in the exception model: it receives the snapshot and either
completes normally (`true`) or throws (`false`). -/
def EListener : Type := List Project → Bool

/-- The unguarded notification loop of `updateListeners`, starting at listener
index `k`: invoke each listener in order with the snapshot; if one throws,
stop — later listeners are not invoked.  Returns the indices invoked in order
and whether the loop completed without an exception. -/
def runFrom (snap : List Project) : Nat → List EListener → List Nat × Bool
  | _, [] => ([], true)
  | k, l :: rest =>
    if l snap then
      ((runFrom snap (k + 1) rest).1.cons k, (runFrom snap (k + 1) rest).2)
    else ([k], false)

/-- Exception model of the store: projects plus listeners that may throw. -/
structure EStore where
  projects : List Project
  listeners : List EListener

/-- Notification in the exception model: run the loop from the first listener
on the current canonical sequence. -/
def EStore.updateListeners (s : EStore) : List Nat × Bool :=
  runFrom s.projects 0 s.listeners

/-- Exception-model embedding of `addProject`: append the new `Active` project,
then notify; the store has no try/catch, so the loop outcome is the outcome
of the whole call. -/
def EStore.addProject (s : EStore) (freshId title description : String) (people : Int) :
    EStore × (List Nat × Bool) :=
  ({ s with projects := s.projects
      ++ [⟨freshId, title, description, people, ProjectStatus.Active⟩] },
    EStore.updateListeners { s with projects := s.projects
      ++ [⟨freshId, title, description, people, ProjectStatus.Active⟩] })

/-- Exception-model embedding of `moveProject`: as in the value model, but the
notification outcome of the unguarded loop is returned to the caller. -/
def EStore.moveProject (s : EStore) (projectId : String) (newStatus : ProjectStatus) :
    EStore × (List Nat × Bool) :=
  match s.projects.find? (fun p => p.id == projectId) with
  | some p =>
    if p.status ≠ newStatus then
      ({ s with projects := updateFirst s.projects projectId newStatus },
        EStore.updateListeners
          { s with projects := updateFirst s.projects projectId newStatus })
    else (s, ([], true))
  | none => (s, ([], true))

theorem runFrom_throw (snap : List Project) :
    ∀ (N : Nat) (ls : List EListener) (k : Nat) (l : EListener),
      ls[N]? = some l → l snap = false →
      (∀ (j : Nat) (l' : EListener), j < N → ls[j]? = some l' → l' snap = true) →
      runFrom snap k ls = (List.range' k (N + 1), false)
  | N, [], k, l => by simp
  | 0, l0 :: rest, k, l => by
      intro hN hthrow _
      simp only [List.getElem?_cons_zero, Option.some_inj] at hN
      subst hN
      simp [runFrom, hthrow]
  | N + 1, l0 :: rest, k, l => by
      intro hN hthrow hbefore
      simp only [List.getElem?_cons_succ] at hN
      have h0 : l0 snap = true := hbefore 0 l0 (by omega) (by simp)
      have ih := runFrom_throw snap N rest (k + 1) l hN hthrow
        (fun j l' hj hl' => hbefore (j + 1) l' (by omega) (by simpa using hl'))
      simp only [runFrom, h0, if_true, ih]
      rfl

/-- Claim C8: a listener exception during notification is not caught by the
store.  If listener `N` throws on the delivered snapshot and every earlier
listener completes, then the mutating call (`addProject` or `moveProject`)
invokes exactly listeners `0..N` — no later listener runs — and the exception
outcome propagates to the caller of the mutating operation. -/
theorem listener_throw_propagation :
    (∀ (s : EStore) (fid t d : String) (pp : Int) (N : Nat) (l : EListener),
        s.listeners[N]? = some l →
        l ((s.addProject fid t d pp).1.projects) = false →
        (∀ (j : Nat) (l' : EListener), j < N → s.listeners[j]? = some l' →
          l' ((s.addProject fid t d pp).1.projects) = true) →
        (s.addProject fid t d pp).2 = (List.range (N + 1), false))
    ∧ (∀ (s : EStore) (pid : String) (st : ProjectStatus) (p : Project) (N : Nat)
          (l : EListener),
        s.projects.find? (fun q => q.id == pid) = some p → p.status ≠ st →
        s.listeners[N]? = some l →
        l ((s.moveProject pid st).1.projects) = false →
        (∀ (j : Nat) (l' : EListener), j < N → s.listeners[j]? = some l' →
          l' ((s.moveProject pid st).1.projects) = true) →
        (s.moveProject pid st).2 = (List.range (N + 1), false)) := by
  constructor
  · intro s fid t d pp N l hN hthrow hbefore
    have hr := runFrom_throw ((s.addProject fid t d pp).1.projects) N s.listeners 0 l
      hN hthrow hbefore
    rw [List.range_eq_range']
    exact hr
  · intro s pid st p N l hf hst hN hthrow hbefore
    have hmv : s.moveProject pid st
        = ({ s with projects := updateFirst s.projects pid st },
            EStore.updateListeners { s with projects := updateFirst s.projects pid st }) := by
      simp [EStore.moveProject, hf, hst]
    rw [hmv] at hthrow hbefore ⊢
    have hr := runFrom_throw (updateFirst s.projects pid st) N s.listeners 0 l
      hN hthrow hbefore
    rw [List.range_eq_range']
    exact hr

/-- A concrete exception-model store: empty project list, three listeners of
which the middle one throws on every snapshot. -/
def sampleE : EStore :=
  { projects := [], listeners := [fun _ => true, fun _ => false, fun _ => true] }

/-- Witness for claim C8: on the concrete store whose second listener throws,
`addProject` invokes only listeners 0 and 1 and reports the exception. -/
theorem listener_throw_propagation_witness :
    (sampleE.addProject "id1" "Build API" "Design the REST layer" 3).2
      = (List.range 2, false) :=
  listener_throw_propagation.1 sampleE "id1" "Build API" "Design the REST layer" 3 1
    (fun _ => false) (by simp [sampleE]) rfl
    (fun j l' hj hl' => by
      have hj0 : j = 0 := by omega
      subst hj0
      simp only [sampleE, List.getElem?_cons_zero, Option.some_inj] at hl'
      subst hl'
      rfl)
